import Mathlib

/-!
Verification of the graph-analysis core of the repository
(`analysis.py` and the detection pipeline of `main.py`).

The Python dictionary returned by `build_graph` is embedded as an
association list `List (V × List V)` which preserves key insertion order,
exactly as a CPython `dict` does.  The `defaultdict(set)` accesses
`graph[u].add(v)` are embedded by `setAdd`, which creates the key at the
end of the list when absent (CPython insertion order) and appends the
neighbor only when it is not already present (set semantics; the
concrete order inside a neighbor list is irrelevant to every property
proved below, which only ever inspects membership, length and
duplicate-freedom of the neighbor lists).
-/

set_option linter.unusedVariables false

variable {V : Type} [DecidableEq V]

/-- A Python dict from node to neighbor list, as an insertion-ordered
association list. -/
abbrev Adj (V : Type) : Type := List (V × List V)

/-- Dictionary lookup with default `[]`: the value stored at the first
occurrence of key `u`, or `[]` when `u` is not a key. -/
def getD : Adj V → V → List V
  | [], _ => []
  | (k, s) :: rest, u => if k = u then s else getD rest u

/-- Add `v` to the list `l` treated as a set: no-op when already present,
otherwise appended. -/
def insertEnd (v : V) (l : List V) : List V :=
  if v ∈ l then l else l ++ [v]

/-- Embedding of `graph[u].add(v)` on a `defaultdict(set)`: the key `u` is
created (at the end, per dict insertion order) when absent, and `v` is
added to its value set. -/
def setAdd : Adj V → V → V → Adj V
  | [], u, v => [(u, [v])]
  | (k, s) :: rest, u, v =>
      if k = u then (k, insertEnd v s) :: rest else (k, s) :: setAdd rest u v

/-- One iteration of the edge loop of `build_graph` (analysis.py lines
10-14): unpack the edge, skip self-loops, otherwise insert both
directions. -/
def buildStep (g : Adj V) (e : V × V) : Adj V :=
  if e.1 = e.2 then g else setAdd (setAdd g e.1 e.2) e.2 e.1

/-- Embedding of `build_graph(nodes, edges)` (analysis.py lines 6-16).
The Python function only ever reads `edges`; the `nodes` parameter is
never mentioned in its body, which this embedding reproduces. -/
def build_graph (nodes : List V) (edges : List (V × V)) : Adj V :=
  edges.foldl buildStep []

/-- The key list of the dictionary, in insertion order (`for node in
graph` iterates this). -/
def keysList (g : Adj V) : List V :=
  g.map Prod.fst

/-- Embedding of `is_eulerian(graph)` (analysis.py lines 18-27),
returning the exact strings of the source. -/
def is_eulerian (g : Adj V) : String :=
  let odd_degree_nodes := (keysList g).filter (fun node => (getD g node).length % 2 != 0)
  if odd_degree_nodes.length = 0 then "Eulerian Circuit ✅"
  else if odd_degree_nodes.length = 2 then "Eulerian Path ✅"
  else "❌ Neither Eulerian Circuit nor Eulerian Path"

/-- The multiset of node degrees of a graph (degree = size of the stored
neighbor list). -/
def degreeMultiset (g : Adj V) : Multiset Nat :=
  ((keysList g).map (fun n => (getD g n).length) : List Nat)

/-- The number of odd-degree nodes, read off the degree multiset alone. -/
def oddDegreeCount (g : Adj V) : Nat :=
  Multiset.countP (fun d => d % 2 = 1) (degreeMultiset g)

/-- The neighbor loop of `is_hamiltonian_path` (analysis.py lines 35-44),
with the recursive call abstracted as `rec`.  The Python function mutates
one shared `path` list and `visited` set in place; the embedding threads
that state explicitly, so the returned pair is the content of the two
structures when the function returns.  After a failed recursive attempt
the source pops the path and removes the neighbor from the visited set of
whatever state the recursive call left behind, which is exactly what the
`dropLast`/`erase` on the returned state expresses. -/
def hamLoop (rec : List V → Finset V → Bool × List V × Finset V) :
    List V → Finset V → List V → Bool × List V × Finset V
  | path, visited, [] => (false, path, visited)
  | path, visited, n :: rest =>
      if n ∈ visited then hamLoop rec path visited rest
      else
        let r := rec (path ++ [n]) (insert n visited)
        if r.1 then r
        else hamLoop rec r.2.1.dropLast (r.2.2.erase n) rest

/-- Embedding of `is_hamiltonian_path(graph, path, visited)` (analysis.py
lines 29-46).  The Python recursion has no explicit bound; `fuel` bounds
the recursion depth (each nested call consumes one unit), and
`has_hamiltonian_path` below supplies strictly more fuel than any
execution can consume, so the embedding agrees with the source on every
reachable call.  On an empty `path` the source would raise `IndexError`
at `path[-1]`; that argument is unreachable from `has_hamiltonian_path`
and is mapped to a failure here. -/
def is_hamiltonian_path (g : Adj V) : Nat → List V → Finset V → Bool × List V × Finset V
  | 0, path, visited => (false, path, visited)
  | fuel + 1, path, visited =>
      if path.length = g.length then (true, path, visited)
      else
        match path.getLast? with
        | none => (false, path, visited)
        | some last =>
            hamLoop (fun p v => is_hamiltonian_path g fuel p v) path visited (getD g last)

/-- Every identifier occurring in the dictionary, as key or as neighbor. -/
def allNodes : Adj V → Finset V
  | [] => ∅
  | p :: rest => insert p.1 (p.2.foldr insert (allNodes rest))

/-- Embedding of `has_hamiltonian_path(graph)` (analysis.py lines 48-53):
try every key as a start node, with the start already on the path and in
the visited set, returning the exact strings of the source.  The fuel
`(allNodes g).card + 1` exceeds the depth any execution can reach, since
every nested call strictly enlarges the visited set inside `allNodes g`. -/
def has_hamiltonian_path (g : Adj V) : String :=
  if (keysList g).any (fun s => (is_hamiltonian_path g ((allNodes g).card + 1) [s] {s}).1)
  then "Hamiltonian Path Exists ✅"
  else "❌ No Hamiltonian Path Found"

/-- Embedding of `detect_with_feature_matching` (main.py lines 157-161):
a reserved extension point that returns two empty lists. -/
def detect_with_feature_matching {α β γ : Type} (image_path : α) : List β × List γ :=
  ([], [])

/-- Embedding of `alternative_detection_methods` (main.py lines 81-96),
abstracted over the strategy list (the source fixes it to
`[detect_with_contours, detect_with_hough, detect_with_feature_matching]`,
whose first two members are OpenCV heuristics outside the embedding).
A strategy's output is returned when both lists are non-empty (Python
truthiness of `nodes and edges`); otherwise the next strategy runs; an
exhausted list yields two empty lists. -/
def alternative_detection_methods {α β γ : Type}
    (methods : List (α → List β × List γ)) (image_path : α) : List β × List γ :=
  match methods with
  | [] => ([], [])
  | method :: rest =>
      let r := method image_path
      if !r.1.isEmpty && !r.2.isEmpty then r
      else alternative_detection_methods rest image_path

/-- The printed record of `analyze_graph` (analysis.py lines 75-96),
collected as a value: node count, accepted edge count, degree list and
the two verdict strings. -/
structure AnalysisReport where
  totalNodes : Nat
  validEdges : Nat
  degrees : List Nat
  eulerianMsg : String
  hamiltonianMsg : String

/-- Squared Euclidean distance between two integer pixel coordinates.
`analyze_graph` compares `np.linalg.norm` values; for exact integer
coordinates the nearest point under the Euclidean norm is the nearest
point under the squared norm, which needs no square root. -/
def normSq (p q : Int × Int) : Int :=
  (p.1 - q.1) ^ 2 + (p.2 - q.2) ^ 2

/-- Embedding of `min(range(n), key=f)`: the first index in `[0, n)`
attaining the minimal key (Python `min` keeps the earliest minimum). -/
def argminFirst (f : Nat → Int) (n : Nat) : Nat :=
  (List.range n).foldl (fun best i => if f i < f best then i else best) 0

/-- Embedding of `analyze_graph(nodes, edges)` (analysis.py lines 55-96).
The source prints its results and returns `None` in every branch; the
embedding returns `none` exactly on the early `return` of the
fewer-than-2-nodes guard (lines 57-59) and otherwise packages the printed
analysis as a report. -/
def analyze_graph (nodes : List (Int × Int))
    (edges : List ((Int × Int) × (Int × Int))) : Option AnalysisReport :=
  if nodes.length < 2 then none
  else
    let n := nodes.length
    let st := edges.foldl
      (fun (st : (Nat → List Nat) × Nat) e =>
        let n1 := argminFirst (fun i => normSq (nodes.getD i (0, 0)) e.1) n
        let n2 := argminFirst (fun i => normSq (nodes.getD i (0, 0)) e.2) n
        if n1 ≠ n2 then
          let adj1 := fun j => if j = n1 then st.1 j ++ [n2] else st.1 j
          let adj2 := fun j => if j = n2 then adj1 j ++ [n1] else adj1 j
          (adj2, st.2 + 1)
        else st)
      ((fun _ => []), 0)
    let degrees := (List.range n).map (fun i => (st.1 i).length)
    let odd_degree := degrees.countP (fun d => d % 2 != 0)
    some
      { totalNodes := n
        validEdges := st.2
        degrees := degrees
        eulerianMsg :=
          if odd_degree = 0 then "✅ Eulerian Circuit exists"
          else if odd_degree = 2 then "✅ Eulerian Path exists"
          else "❌ No Eulerian Path/Circuit"
        hamiltonianMsg :=
          if 2 < n ∧ n ≤ st.2 then "⚠️ Possible Hamiltonian Path (needs verification)"
          else "❌ No Hamiltonian Path detected" }

/-! ### Basic lemmas about the dictionary operations -/

theorem mem_insertEnd {v x : V} {l : List V} : x ∈ insertEnd v l ↔ x = v ∨ x ∈ l := by
  unfold insertEnd
  split
  · next h => constructor
              · exact fun hx => Or.inr hx
              · rintro (rfl | hx)
                · exact h
                · exact hx
  · simp [List.mem_append, or_comm]

theorem nodup_insertEnd {v : V} {l : List V} (h : l.Nodup) : (insertEnd v l).Nodup := by
  unfold insertEnd
  split
  · exact h
  · next hv => simpa [List.nodup_append] using ⟨h, hv⟩

theorem getD_setAdd (g : Adj V) (u v x : V) :
    getD (setAdd g u v) x = if x = u then insertEnd v (getD g u) else getD g x := by
  induction g with
  | nil =>
      by_cases hx : x = u
      · simp [setAdd, getD, hx, insertEnd]
      · simp [setAdd, getD, hx, Ne.symm hx]
  | cons p rest ih =>
      obtain ⟨k, s⟩ := p
      by_cases hk : k = u
      · subst hk
        by_cases hx : x = k
        · subst hx
          simp [setAdd, getD]
        · simp [setAdd, getD, hx, Ne.symm hx]
      · by_cases hx : x = k
        · subst hx
          simp [setAdd, getD, hk]
        · simp [setAdd, getD, hk, Ne.symm hx, ih]

theorem keysList_setAdd (g : Adj V) (u v : V) :
    keysList (setAdd g u v) =
      if u ∈ keysList g then keysList g else keysList g ++ [u] := by
  induction g with
  | nil => simp [setAdd, keysList]
  | cons p rest ih =>
      obtain ⟨k, s⟩ := p
      by_cases hk : k = u
      · subst hk
        simp [setAdd, keysList]
      · have hk2 : ¬ u = k := fun h => hk h.symm
        have hcons : keysList (setAdd ((k, s) :: rest) u v) = k :: keysList (setAdd rest u v) := by
          simp [setAdd, hk, keysList]
        rw [hcons, ih]
        have hmem : u ∈ keysList ((k, s) :: rest) ↔ u ∈ keysList rest := by
          simp [keysList, hk2]
        by_cases hu : u ∈ keysList rest
        · rw [if_pos hu, if_pos (hmem.mpr hu)]
          rfl
        · rw [if_neg hu, if_neg (fun hc => hu (hmem.mp hc))]
          rfl

theorem mem_keysList_setAdd {g : Adj V} {u v x : V} :
    x ∈ keysList (setAdd g u v) ↔ x ∈ keysList g ∨ x = u := by
  rw [keysList_setAdd]
  split
  · next h =>
      constructor
      · exact fun hx => Or.inl hx
      · rintro (hx | rfl)
        · exact hx
        · exact h
  · simp

theorem getD_key {g : Adj V} {a b : V} (h : b ∈ getD g a) : a ∈ keysList g := by
  induction g with
  | nil => simp [getD] at h
  | cons p rest ih =>
      obtain ⟨k, s⟩ := p
      by_cases hk : k = a
      · subst hk
        simp [keysList]
      · simp only [getD, if_neg hk] at h
        simp [keysList]
        exact Or.inr (by simpa [keysList] using ih h)

theorem setAdd_of_mem {g : Adj V} {u v : V} (h : v ∈ getD g u) : setAdd g u v = g := by
  induction g with
  | nil => simp [getD] at h
  | cons p rest ih =>
      obtain ⟨k, s⟩ := p
      by_cases hk : k = u
      · subst hk
        simp only [getD, if_pos rfl, if_true, eq_self_iff_true] at h
        simp [setAdd, insertEnd, h]
      · simp only [getD, if_neg hk] at h
        simp [setAdd, hk, ih h]

theorem mem_getD_buildStep_mono {g : Adj V} {e : V × V} {x y : V}
    (h : x ∈ getD g y) : x ∈ getD (buildStep g e) y := by
  obtain ⟨u, v⟩ := e
  by_cases huv : u = v
  · simpa [buildStep, huv] using h
  · simp only [buildStep, if_neg huv, getD_setAdd]
    by_cases hyv : y = v
    · subst hyv
      rw [if_pos rfl, mem_insertEnd]
      by_cases hyu : y = u
      · subst hyu
        rw [if_pos rfl]
        exact Or.inr (mem_insertEnd.mpr (Or.inr h))
      · rw [if_neg hyu]
        exact Or.inr h
    · rw [if_neg hyv]
      by_cases hyu : y = u
      · subst hyu
        rw [if_pos rfl, mem_insertEnd]
        exact Or.inr h
      · rw [if_neg hyu]
        exact h

theorem mem_getD_foldl_mono {l : List (V × V)} {g : Adj V} {x y : V}
    (h : x ∈ getD g y) : x ∈ getD (l.foldl buildStep g) y := by
  induction l generalizing g with
  | nil => exact h
  | cons e rest ih => exact ih (mem_getD_buildStep_mono h)

theorem mem_buildStep_left {g : Adj V} {u v : V} (h : u ≠ v) :
    v ∈ getD (buildStep g (u, v)) u := by
  have hvu : ¬ u = v := h
  simp only [buildStep, if_neg hvu, getD_setAdd]
  simp [mem_insertEnd]

theorem mem_buildStep_right {g : Adj V} {u v : V} (h : u ≠ v) :
    u ∈ getD (buildStep g (u, v)) v := by
  have hvu : ¬ u = v := h
  simp only [buildStep, if_neg hvu, getD_setAdd]
  simp [mem_insertEnd]

theorem buildStep_self (g : Adj V) (a : V) : buildStep g (a, a) = g := by
  simp [buildStep]

theorem buildStep_symm {g : Adj V} (hg : ∀ a b : V, a ∈ getD g b ↔ b ∈ getD g a)
    (e : V × V) : ∀ a b : V, a ∈ getD (buildStep g e) b ↔ b ∈ getD (buildStep g e) a := by
  intro a b
  obtain ⟨u, v⟩ := e
  by_cases huv : u = v
  · simp only [buildStep, if_pos huv]
    exact hg a b
  · simp only [buildStep, if_neg huv, getD_setAdd]
    by_cases hbv : b = v <;> by_cases hbu : b = u <;>
      by_cases hav : a = v <;> by_cases hau : a = u <;>
        simp_all [mem_insertEnd, hg a b]

theorem buildStep_noSelf {g : Adj V} (hg : ∀ a : V, a ∉ getD g a) (e : V × V) :
    ∀ a : V, a ∉ getD (buildStep g e) a := by
  intro a
  obtain ⟨u, v⟩ := e
  by_cases huv : u = v
  · simpa [buildStep, huv] using hg a
  · simp only [buildStep, if_neg huv, getD_setAdd]
    by_cases hav : a = v
    · subst hav
      rw [if_pos rfl, mem_insertEnd]
      rintro (rfl | hmem)
      · exact huv rfl
      · rw [if_neg (fun hh => huv hh.symm)] at hmem
        exact hg a hmem
    · rw [if_neg hav]
      by_cases hau : a = u
      · subst hau
        rw [if_pos rfl, mem_insertEnd]
        rintro (rfl | hmem)
        · exact huv rfl
        · exact hg a hmem
      · rw [if_neg hau]
        exact hg a

theorem buildStep_valsNodup {g : Adj V} (hg : ∀ a : V, (getD g a).Nodup) (e : V × V) :
    ∀ a : V, (getD (buildStep g e) a).Nodup := by
  intro a
  obtain ⟨u, v⟩ := e
  by_cases huv : u = v
  · simpa [buildStep, huv] using hg a
  · simp only [buildStep, if_neg huv, getD_setAdd]
    by_cases hav : a = v
    · rw [if_pos hav]
      by_cases hvu : v = u
      · exact absurd hvu.symm huv
      · rw [if_neg hvu]
        exact nodup_insertEnd (hg v)
    · rw [if_neg hav]
      by_cases hau : a = u
      · rw [if_pos hau]
        exact nodup_insertEnd (hg u)
      · rw [if_neg hau]
        exact hg a

theorem foldl_symm (l : List (V × V)) (g : Adj V)
    (hg : ∀ a b : V, a ∈ getD g b ↔ b ∈ getD g a) :
    ∀ a b : V, a ∈ getD (l.foldl buildStep g) b ↔ b ∈ getD (l.foldl buildStep g) a := by
  induction l generalizing g with
  | nil => exact hg
  | cons e rest ih => exact ih (buildStep g e) (buildStep_symm hg e)

theorem foldl_noSelf (l : List (V × V)) (g : Adj V) (hg : ∀ a : V, a ∉ getD g a) :
    ∀ a : V, a ∉ getD (l.foldl buildStep g) a := by
  induction l generalizing g with
  | nil => exact hg
  | cons e rest ih => exact ih (buildStep g e) (buildStep_noSelf hg e)

theorem foldl_valsNodup (l : List (V × V)) (g : Adj V) (hg : ∀ a : V, (getD g a).Nodup) :
    ∀ a : V, (getD (l.foldl buildStep g) a).Nodup := by
  induction l generalizing g with
  | nil => exact hg
  | cons e rest ih => exact ih (buildStep g e) (buildStep_valsNodup hg e)

theorem mem_keysList_buildStep {g : Adj V} {e : V × V} {x : V} :
    x ∈ keysList (buildStep g e) ↔ x ∈ keysList g ∨ (e.1 ≠ e.2 ∧ (x = e.1 ∨ x = e.2)) := by
  obtain ⟨u, v⟩ := e
  by_cases huv : u = v
  · simp [buildStep, huv]
  · simp only [buildStep, if_neg huv, mem_keysList_setAdd]
    constructor
    · rintro ((hx | rfl) | rfl)
      · exact Or.inl hx
      · exact Or.inr ⟨huv, Or.inl rfl⟩
      · exact Or.inr ⟨huv, Or.inr rfl⟩
    · rintro (hx | ⟨_, rfl | rfl⟩)
      · exact Or.inl (Or.inl hx)
      · exact Or.inl (Or.inr rfl)
      · exact Or.inr rfl

theorem mem_keysList_foldl {l : List (V × V)} {g : Adj V} {x : V} :
    x ∈ keysList (l.foldl buildStep g) ↔
      x ∈ keysList g ∨ ∃ e ∈ l, e.1 ≠ e.2 ∧ (x = e.1 ∨ x = e.2) := by
  induction l generalizing g with
  | nil => simp
  | cons e rest ih =>
      rw [List.foldl_cons, ih, mem_keysList_buildStep]
      simp only [List.mem_cons]
      constructor
      · rintro ((hx | he) | ⟨f, hf, hcond⟩)
        · exact Or.inl hx
        · exact Or.inr ⟨e, Or.inl rfl, he⟩
        · exact Or.inr ⟨f, Or.inr hf, hcond⟩
      · rintro (hx | ⟨f, rfl | hf, hcond⟩)
        · exact Or.inl (Or.inl hx)
        · exact Or.inl (Or.inr hcond)
        · exact Or.inr ⟨f, hf, hcond⟩

/-! ### Claim theorems about `build_graph` -/

/-- C1, counterexample: the claim that `build_graph` maps every node of
`nodes` (including isolated ones) to a neighbor set is false: with
`nodes = [0, 1]` and no edges the returned dictionary is empty, so the
isolated node `0` has no entry. -/
theorem isolated_nodes_dropped_cex :
    (0 : Nat) ∈ [0, 1] ∧ (0 : Nat) ∉ keysList (build_graph [0, 1] ([] : List (Nat × Nat))) := by
  constructor
  · decide
  · simp [build_graph, keysList]

/-- C1, amended: `build_graph` ignores its `nodes` parameter entirely;
the keys of the returned dictionary are exactly the endpoints of the
non-self-loop edges, so isolated nodes (nodes occurring in no surviving
edge) have no entry. -/
theorem build_graph_keys_from_edges {V : Type} [DecidableEq V] :
    (∀ (nodes nodes2 : List V) (edges : List (V × V)),
        build_graph nodes edges = build_graph nodes2 edges) ∧
    (∀ (nodes : List V) (edges : List (V × V)) (x : V),
        x ∈ keysList (build_graph nodes edges) ↔
          ∃ e ∈ edges, e.1 ≠ e.2 ∧ (x = e.1 ∨ x = e.2)) := by
  constructor
  · intro nodes nodes2 edges
    rfl
  · intro nodes edges x
    rw [build_graph, mem_keysList_foldl]
    simp [keysList]

/-- C2, counterexample: the claim that `build_graph` refuses to build
when fewer than 2 nodes are supplied is false: with the single node `0`
it still returns a (non-empty) graph. -/
theorem build_graph_no_min_node_check_cex :
    ([0] : List Nat).length < 2 ∧
      build_graph [0] [((0 : Nat), 1)] = [(0, [1]), (1, [0])] := by
  constructor
  · decide
  · rfl

/-- C2, amended: `build_graph` performs no node-count validation at all
(its result does not even depend on `nodes`); the fewer-than-2-nodes
refusal lives in the separate `analyze_graph` function, which returns no
result exactly when `len(nodes) < 2`. -/
theorem min_node_validation_in_analyze_graph {V : Type} [DecidableEq V] :
    (∀ (nodes : List V) (edges : List (V × V)),
        build_graph nodes edges = build_graph [] edges) ∧
    (∀ (nodes : List (Int × Int)) (edges : List ((Int × Int) × (Int × Int))),
        (analyze_graph nodes edges).isNone ↔ nodes.length < 2) := by
  constructor
  · intro nodes edges
    rfl
  · intro nodes edges
    by_cases h : nodes.length < 2 <;> simp [analyze_graph, h]

/-- C3, counterexample: the claim that edges referencing a label absent
from `nodes` are discarded (and that all keys and neighbors of the built
graph lie in `nodes`) is false: the unknown label `5` becomes a key and a
neighbor. -/
theorem unknown_label_edges_kept_cex :
    (5 : Nat) ∉ [0, 1] ∧
      (5 : Nat) ∈ keysList (build_graph [0, 1] [((0 : Nat), 5)]) ∧
      (5 : Nat) ∈ getD (build_graph [0, 1] [((0 : Nat), 5)]) 0 := by
  refine ⟨by decide, ?_, ?_⟩
  · simp [build_graph, buildStep, setAdd, keysList, insertEnd, getD]
  · simp [build_graph, buildStep, setAdd, keysList, insertEnd, getD]

/-- C3, amended: `build_graph` checks edge endpoints against nothing:
every non-self-loop edge enters the graph symmetrically, whether or not
its endpoints occur in `nodes`, and unknown endpoints become keys of
their own. -/
theorem unknown_label_edges_kept {V : Type} [DecidableEq V]
    (nodes : List V) (e1 e2 : List (V × V)) (a b : V) (h : a ≠ b) :
    b ∈ getD (build_graph nodes (e1 ++ (a, b) :: e2)) a ∧
      a ∈ getD (build_graph nodes (e1 ++ (a, b) :: e2)) b := by
  rw [build_graph, List.foldl_append, List.foldl_cons]
  exact ⟨mem_getD_foldl_mono (mem_buildStep_left h),
         mem_getD_foldl_mono (mem_buildStep_right h)⟩

/-- C3, amended, witness at a concrete input: the edge `(0, 5)` with `5`
not among the supplied nodes survives into the graph in both
directions. -/
theorem unknown_label_edges_kept_witness :
    (5 : Nat) ∈ getD (build_graph [0, 1] ([] ++ ((0 : Nat), 5) :: [])) 0 ∧
      (0 : Nat) ∈ getD (build_graph [0, 1] ([] ++ ((0 : Nat), 5) :: [])) 5 :=
  unknown_label_edges_kept [0, 1] [] [] 0 5 (by decide)

/-- C4: every graph produced by `build_graph` has symmetric adjacency:
`b` lies in the neighbor set of `a` exactly when `a` lies in the
neighbor set of `b`. -/
theorem build_graph_symmetric {V : Type} [DecidableEq V]
    (nodes : List V) (edges : List (V × V)) (a b : V) :
    b ∈ getD (build_graph nodes edges) a ↔ a ∈ getD (build_graph nodes edges) b := by
  rw [build_graph]
  exact foldl_symm edges [] (by simp [getD]) b a

/-- C5: no node of a graph produced by `build_graph` is its own
neighbor, a self-loop edge `(a, a)` anywhere in the edge list leaves the
built graph unchanged, and in particular every degree (neighbor-list
length) is unchanged by it. -/
theorem self_loops_discarded {V : Type} [DecidableEq V] :
    (∀ (nodes : List V) (edges : List (V × V)) (a : V),
        a ∉ getD (build_graph nodes edges) a) ∧
    (∀ (nodes : List V) (e1 e2 : List (V × V)) (a : V),
        build_graph nodes (e1 ++ (a, a) :: e2) = build_graph nodes (e1 ++ e2)) ∧
    (∀ (nodes : List V) (e1 e2 : List (V × V)) (a x : V),
        (getD (build_graph nodes (e1 ++ (a, a) :: e2)) x).length =
          (getD (build_graph nodes (e1 ++ e2)) x).length) := by
  have hdrop : ∀ (nodes : List V) (e1 e2 : List (V × V)) (a : V),
      build_graph nodes (e1 ++ (a, a) :: e2) = build_graph nodes (e1 ++ e2) := by
    intro nodes e1 e2 a
    rw [build_graph, build_graph, List.foldl_append, List.foldl_append, List.foldl_cons,
        buildStep_self]
  refine ⟨?_, hdrop, ?_⟩
  · intro nodes edges a
    rw [build_graph]
    exact foldl_noSelf edges [] (by simp [getD]) a
  · intro nodes e1 e2 a x
    rw [hdrop]

/-- C6: supplying the same edge pair `(a, b)` twice builds the same
graph as supplying it once, and a neighbor is never recorded twice: the
stored neighbor count of `b` in any neighbor list of a built graph is at
most one. -/
theorem duplicate_edges_collapse {V : Type} [DecidableEq V] :
    (∀ (nodes : List V) (e1 e2 e3 : List (V × V)) (a b : V),
        build_graph nodes (e1 ++ (a, b) :: (e2 ++ (a, b) :: e3)) =
          build_graph nodes (e1 ++ (a, b) :: (e2 ++ e3))) ∧
    (∀ (nodes : List V) (edges : List (V × V)) (a b : V),
        (getD (build_graph nodes edges) a).count b ≤ 1) := by
  constructor
  · intro nodes e1 e2 e3 a b
    rw [build_graph, build_graph, List.foldl_append, List.foldl_append, List.foldl_cons,
        List.foldl_cons, List.foldl_append, List.foldl_append, List.foldl_cons]
    by_cases hab : a = b
    · subst hab
      rw [buildStep_self]
    · have hmem1 : b ∈ getD (List.foldl buildStep
          (buildStep (List.foldl buildStep [] e1) (a, b)) e2) a :=
        mem_getD_foldl_mono (mem_buildStep_left hab)
      have hmem2 : a ∈ getD (List.foldl buildStep
          (buildStep (List.foldl buildStep [] e1) (a, b)) e2) b :=
        mem_getD_foldl_mono (mem_buildStep_right hab)
      rw [show buildStep (List.foldl buildStep
            (buildStep (List.foldl buildStep [] e1) (a, b)) e2) (a, b) =
          List.foldl buildStep (buildStep (List.foldl buildStep [] e1) (a, b)) e2 from by
        rw [buildStep, if_neg hab]
        rw [setAdd_of_mem hmem1, setAdd_of_mem hmem2]]
  · intro nodes edges a b
    have hnodup : (getD (build_graph nodes edges) a).Nodup := by
      rw [build_graph]
      exact foldl_valsNodup edges [] (by simp [getD]) a
    exact List.nodup_iff_count_le_one.mp hnodup b

/-! ### Claim theorem about `is_eulerian` -/

theorem odd_filter_length (g : Adj V) :
    ((keysList g).filter (fun node => (getD g node).length % 2 != 0)).length =
      oddDegreeCount g := by
  rw [oddDegreeCount, degreeMultiset, Multiset.coe_countP, List.countP_map,
      ← List.countP_eq_length_filter]
  apply List.countP_congr
  intro a ha
  rcases Nat.mod_two_eq_zero_or_one (getD g a).length with h | h <;>
    simp [h, Function.comp]

/-- C7: the Eulerian classification of `is_eulerian` is determined
solely by the number of odd-degree nodes (0 odd degrees gives the
circuit verdict, exactly 2 the path verdict, anything else the negative
verdict), and consequently any two graphs with the same multiset of
node degrees receive the same classification. -/
theorem eulerian_from_degree_multiset {V : Type} [DecidableEq V] :
    (∀ g : Adj V, is_eulerian g =
        if oddDegreeCount g = 0 then "Eulerian Circuit ✅"
        else if oddDegreeCount g = 2 then "Eulerian Path ✅"
        else "❌ Neither Eulerian Circuit nor Eulerian Path") ∧
    (∀ g h : Adj V, degreeMultiset g = degreeMultiset h →
        is_eulerian g = is_eulerian h) := by
  have hmain : ∀ g : Adj V, is_eulerian g =
      if oddDegreeCount g = 0 then "Eulerian Circuit ✅"
      else if oddDegreeCount g = 2 then "Eulerian Path ✅"
      else "❌ Neither Eulerian Circuit nor Eulerian Path" := by
    intro g
    rw [is_eulerian, odd_filter_length]
  refine ⟨hmain, ?_⟩
  intro g h hdeg
  rw [hmain, hmain]
  rw [show oddDegreeCount g = oddDegreeCount h from by
    rw [oddDegreeCount, oddDegreeCount, hdeg]]

/-- C7, witness at concrete inputs: two different graphs with the same
degree multiset receive the same Eulerian classification. -/
theorem eulerian_from_degree_multiset_witness :
    degreeMultiset [((0 : Nat), [1]), (1, [0])] = degreeMultiset [((7 : Nat), [5]), (5, [7])] ∧
      is_eulerian [((0 : Nat), [1]), (1, [0])] = is_eulerian [((7 : Nat), [5]), (5, [7])] :=
  ⟨by decide, eulerian_from_degree_multiset.2 _ _ (by decide)⟩

/-! ### The backtracking search: state restoration and success criteria -/

theorem hamLoop_restore (rec : List V → Finset V → Bool × List V × Finset V)
    (hrec : ∀ p w, (rec p w).1 = false → (rec p w).2.1 = p ∧ (rec p w).2.2 = w) :
    ∀ (ns path : List V) (visited : Finset V),
      (hamLoop rec path visited ns).1 = false →
        (hamLoop rec path visited ns).2.1 = path ∧
          (hamLoop rec path visited ns).2.2 = visited := by
  intro ns
  induction ns with
  | nil => intro path visited _; exact ⟨rfl, rfl⟩
  | cons n rest ih =>
      intro path visited hfail
      by_cases hn : n ∈ visited
      · rw [hamLoop, if_pos hn] at hfail ⊢
        exact ih path visited hfail
      · rw [hamLoop, if_neg hn] at hfail ⊢
        by_cases hr : (rec (path ++ [n]) (insert n visited)).1 = true
        · simp only [hr, if_true] at hfail
          cases hfail
        · have hr2 : (rec (path ++ [n]) (insert n visited)).1 = false :=
            Bool.not_eq_true _ ▸ (by simpa using hr)
          obtain ⟨hp, hw⟩ := hrec _ _ hr2
          simp only [hr2, Bool.false_eq_true, if_false] at hfail ⊢
          rw [hp, hw, List.dropLast_concat, Finset.erase_insert hn] at hfail ⊢
          exact ih path visited hfail

theorem is_hamiltonian_path_restore (g : Adj V) :
    ∀ (fuel : Nat) (path : List V) (visited : Finset V),
      (is_hamiltonian_path g fuel path visited).1 = false →
        (is_hamiltonian_path g fuel path visited).2.1 = path ∧
          (is_hamiltonian_path g fuel path visited).2.2 = visited := by
  intro fuel
  induction fuel with
  | zero => intro path visited _; exact ⟨rfl, rfl⟩
  | succ fuel ih =>
      intro path visited hfail
      by_cases hlen : path.length = g.length
      · rw [is_hamiltonian_path, if_pos hlen] at hfail
        cases hfail
      · rw [is_hamiltonian_path, if_neg hlen] at hfail ⊢
        by_cases hpath : path = []
        · subst hpath
          exact ⟨rfl, rfl⟩
        · obtain ⟨last, hlast⟩ : ∃ last, path.getLast? = some last :=
            ⟨path.getLast hpath, List.getLast?_eq_getLast_of_ne_nil hpath⟩
          rw [hlast] at hfail ⊢
          exact hamLoop_restore _ (fun p w => ih p w) _ path visited hfail

theorem hamLoop_fst (rec : List V → Finset V → Bool × List V × Finset V)
    (hrec : ∀ p w, (rec p w).1 = false → (rec p w).2.1 = p ∧ (rec p w).2.2 = w) :
    ∀ (ns path : List V) (visited : Finset V),
      (hamLoop rec path visited ns).1 =
        ns.any (fun n => !(decide (n ∈ visited)) && (rec (path ++ [n]) (insert n visited)).1) := by
  intro ns
  induction ns with
  | nil => intro path visited; rfl
  | cons n rest ih =>
      intro path visited
      by_cases hn : n ∈ visited
      · rw [hamLoop, if_pos hn, ih]
        simp [hn]
      · rw [hamLoop, if_neg hn]
        by_cases hr : (rec (path ++ [n]) (insert n visited)).1 = true
        · simp [hr, hn]
        · have hr2 : (rec (path ++ [n]) (insert n visited)).1 = false := by
            simpa using hr
          obtain ⟨hp, hw⟩ := hrec _ _ hr2
          simp only [hr2, Bool.false_eq_true, if_false]
          rw [hp, hw, List.dropLast_concat, Finset.erase_insert hn, ih]
          simp [hn, hr2]

theorem mem_foldr_insert_of_mem {s : Finset V} {l : List V} {x : V} (h : x ∈ s) :
    x ∈ l.foldr insert s := by
  induction l with
  | nil => exact h
  | cons a rest ih => exact Finset.mem_insert_of_mem ih

theorem keys_subset_allNodes {g : Adj V} : ∀ x ∈ keysList g, x ∈ allNodes g := by
  induction g with
  | nil => intro x hx; simp [keysList] at hx
  | cons p rest ih =>
      intro x hx
      rw [keysList, List.map_cons, List.mem_cons] at hx
      rcases hx with rfl | hx
      · exact Finset.mem_insert_self _ _
      · exact Finset.mem_insert_of_mem (mem_foldr_insert_of_mem (ih x hx))

theorem length_le_card_allNodes {g : Adj V} (hnodup : (keysList g).Nodup) :
    g.length ≤ (allNodes g).card := by
  have hsub : (keysList g).toFinset ⊆ allNodes g := fun x hx =>
    keys_subset_allNodes x (List.mem_toFinset.mp hx)
  have h1 : (keysList g).toFinset.card = (keysList g).length :=
    List.toFinset_card_of_nodup hnodup
  have h2 : (keysList g).length = g.length := by simp [keysList]
  have := Finset.card_le_card hsub
  omega

theorem mem_getD_vals {g : Adj V} {a b : V} (h : b ∈ getD g a) : ∃ p ∈ g, b ∈ p.2 := by
  induction g with
  | nil => simp [getD] at h
  | cons q rest ih =>
      obtain ⟨k, s⟩ := q
      by_cases hk : k = a
      · subst hk
        simp only [getD, if_pos rfl] at h
        exact ⟨(k, s), List.mem_cons_self _ _, h⟩
      · simp only [getD, if_neg hk] at h
        obtain ⟨p, hp, hb⟩ := ih h
        exact ⟨p, List.mem_cons_of_mem _ hp, hb⟩

theorem is_hamiltonian_path_complete (g : Adj V)
    (hnodup : (keysList g).Nodup)
    (hcomp : ∀ a ∈ keysList g, ∀ b ∈ keysList g, a ≠ b → b ∈ getD g a) :
    ∀ (fuel : Nat) (path : List V) (visited : Finset V),
      path ≠ [] →
      (∀ x ∈ path, x ∈ visited) →
      (∀ x ∈ visited, x ∈ keysList g) →
      visited.card = path.length →
      g.length < fuel + path.length →
      (is_hamiltonian_path g fuel path visited).1 = true := by
  intro fuel
  induction fuel with
  | zero =>
      intro path visited hne hpv hvk hcard hfuel
      exfalso
      have h1 : visited.card ≤ (keysList g).toFinset.card :=
        Finset.card_le_card (fun x hx => List.mem_toFinset.mpr (hvk x hx))
      have h2 : (keysList g).toFinset.card = (keysList g).length :=
        List.toFinset_card_of_nodup hnodup
      have h3 : (keysList g).length = g.length := by simp [keysList]
      omega
  | succ fuel ih =>
      intro path visited hne hpv hvk hcard hfuel
      by_cases hlen : path.length = g.length
      · rw [is_hamiltonian_path, if_pos hlen]
      · have hle : path.length ≤ g.length := by
          have h1 : visited.card ≤ (keysList g).toFinset.card :=
            Finset.card_le_card (fun x hx => List.mem_toFinset.mpr (hvk x hx))
          have h2 : (keysList g).toFinset.card = (keysList g).length :=
            List.toFinset_card_of_nodup hnodup
          have h3 : (keysList g).length = g.length := by simp [keysList]
          omega
        have hlt : path.length < g.length := lt_of_le_of_ne hle hlen
        obtain ⟨last, hlast⟩ : ∃ last, path.getLast? = some last :=
          ⟨path.getLast hne, List.getLast?_eq_getLast_of_ne_nil hne⟩
        have hlastmem : last ∈ path := by
          rw [List.getLast?_eq_getLast_of_ne_nil hne] at hlast
          rw [← Option.some_inj.mp hlast]
          exact List.getLast_mem hne
        have hlastk : last ∈ keysList g := hvk last (hpv last hlastmem)
        have hex : ∃ k, k ∈ keysList g ∧ k ∉ visited := by
          by_contra hc
          push_neg at hc
          have hsub : (keysList g).toFinset ⊆ visited := fun x hx =>
            hc x (List.mem_toFinset.mp hx)
          have h1 := Finset.card_le_card hsub
          have h2 : (keysList g).toFinset.card = (keysList g).length :=
            List.toFinset_card_of_nodup hnodup
          have h3 : (keysList g).length = g.length := by simp [keysList]
          omega
        obtain ⟨k0, hk0k, hk0v⟩ := hex
        have hk0ne : last ≠ k0 := fun h => hk0v (h ▸ hpv last hlastmem)
        have hk0adj : k0 ∈ getD g last := hcomp last hlastk k0 hk0k hk0ne
        rw [is_hamiltonian_path, if_neg hlen, hlast,
            hamLoop_fst _ (fun p w => is_hamiltonian_path_restore g fuel p w),
            List.any_eq_true]
        refine ⟨k0, hk0adj, ?_⟩
        rw [Bool.and_eq_true]
        refine ⟨by simp [hk0v], ?_⟩
        apply ih (path ++ [k0]) (insert k0 visited)
        · simp
        · intro x hx
          rcases List.mem_append.mp hx with hx | hx
          · exact Finset.mem_insert_of_mem (hpv x hx)
          · rw [List.mem_singleton.mp hx]
            exact Finset.mem_insert_self _ _
        · intro x hx
          rcases Finset.mem_insert.mp hx with rfl | hx
          · exact hk0k
          · exact hvk x hx
        · rw [Finset.card_insert_of_not_mem hk0v, hcard, List.length_append,
              List.length_singleton]
        · rw [List.length_append, List.length_singleton]
          omega

theorem is_hamiltonian_path_isolated (g : Adj V) (i : V)
    (hnodup : (keysList g).Nodup)
    (hvals : ∀ a : V, ∀ b ∈ getD g a, b ∈ keysList g)
    (hsym : ∀ a ∈ keysList g, ∀ b ∈ getD g a, a ∈ getD g b)
    (hik : i ∈ keysList g) (hideg : getD g i = []) :
    ∀ (fuel : Nat) (path : List V) (visited : Finset V),
      i ∉ visited →
      (∀ x ∈ visited, x ∈ keysList g) →
      visited.card = path.length →
      (is_hamiltonian_path g fuel path visited).1 = false := by
  intro fuel
  induction fuel with
  | zero => intro path visited _ _ _; rfl
  | succ fuel ih =>
      intro path visited hi hvk hcard
      have hlt : path.length < g.length := by
        have hsub : visited ⊆ (keysList g).toFinset.erase i := by
          intro x hx
          exact Finset.mem_erase.mpr ⟨fun h => hi (h ▸ hx), List.mem_toFinset.mpr (hvk x hx)⟩
        have h1 := Finset.card_le_card hsub
        have h2 : ((keysList g).toFinset.erase i).card = (keysList g).toFinset.card - 1 :=
          Finset.card_erase_of_mem (List.mem_toFinset.mpr hik)
        have h3 : (keysList g).toFinset.card = (keysList g).length :=
          List.toFinset_card_of_nodup hnodup
        have h4 : 0 < (keysList g).toFinset.card :=
          Finset.card_pos.mpr ⟨i, List.mem_toFinset.mpr hik⟩
        have h5 : (keysList g).length = g.length := by simp [keysList]
        omega
      rw [is_hamiltonian_path, if_neg (Nat.ne_of_lt hlt)]
      by_cases hpath : path = []
      · subst hpath
        rfl
      · obtain ⟨last, hlast⟩ : ∃ last, path.getLast? = some last :=
          ⟨path.getLast hpath, List.getLast?_eq_getLast_of_ne_nil hpath⟩
        rw [hlast,
            hamLoop_fst _ (fun p w => is_hamiltonian_path_restore g fuel p w),
            List.any_eq_false]
        intro n hn
        by_cases hnv : n ∈ visited
        · simp [hnv]
        · have hni : n ≠ i := by
            rintro rfl
            have hlastk : last ∈ keysList g := getD_key hn
            have : last ∈ getD g n := hsym last hlastk n hn
            rw [hideg] at this
            simp at this
          have hrec : (is_hamiltonian_path g fuel (path ++ [n]) (insert n visited)).1 = false := by
            apply ih (path ++ [n]) (insert n visited)
            · intro hmem
              rcases Finset.mem_insert.mp hmem with h | h
              · exact hni h.symm
              · exact hi h
            · intro x hx
              rcases Finset.mem_insert.mp hx with rfl | hx
              · exact hvals last x hn
              · exact hvk x hx
            · rw [Finset.card_insert_of_not_mem hnv, hcard, List.length_append,
                  List.length_singleton]
          simp [hnv, hrec]

/-- C8: the Hamiltonian search of `has_hamiltonian_path` reports a path
on every complete graph with at least 2 nodes (a graph whose keys are
duplicate-free, whose neighbor lists mention only keys, and in which any
two distinct keys are adjacent), and reports no path on every well-formed
graph of at least 2 nodes containing an isolated node (empty neighbor
list). -/
theorem hamiltonian_search_extremes {V : Type} [DecidableEq V] :
    (∀ g : Adj V,
        (keysList g).Nodup →
        (∀ p ∈ g, ∀ b ∈ p.2, b ∈ keysList g) →
        (∀ a ∈ keysList g, ∀ b ∈ keysList g, a ≠ b → b ∈ getD g a) →
        2 ≤ g.length →
        has_hamiltonian_path g = "Hamiltonian Path Exists ✅") ∧
    (∀ (g : Adj V) (i : V),
        (keysList g).Nodup →
        (∀ p ∈ g, ∀ b ∈ p.2, b ∈ keysList g) →
        (∀ a ∈ keysList g, ∀ b ∈ getD g a, a ∈ getD g b) →
        i ∈ keysList g → getD g i = [] →
        2 ≤ g.length →
        has_hamiltonian_path g = "❌ No Hamiltonian Path Found") := by
  constructor
  · intro g hnodup hvals hcomp hN
    have hklen : (keysList g).length = g.length := by simp [keysList]
    have hkne : keysList g ≠ [] := by
      intro h
      rw [h] at hklen
      simp at hklen
      omega
    obtain ⟨s, hs⟩ : ∃ s, s ∈ keysList g := ⟨(keysList g).head hkne, List.head_mem hkne⟩
    have hany : (keysList g).any
        (fun s => (is_hamiltonian_path g ((allNodes g).card + 1) [s] {s}).1) = true := by
      rw [List.any_eq_true]
      refine ⟨s, hs, ?_⟩
      apply is_hamiltonian_path_complete g hnodup hcomp
      · simp
      · intro x hx
        rw [List.mem_singleton.mp hx]
        exact Finset.mem_singleton_self s
      · intro x hx
        rw [Finset.mem_singleton.mp hx]
        exact hs
      · simp
      · have := length_le_card_allNodes hnodup
        simp only [List.length_singleton]
        omega
    rw [has_hamiltonian_path, if_pos hany]
  · intro g i hnodup hvals hsym hik hideg hN
    have hvals2 : ∀ a : V, ∀ b ∈ getD g a, b ∈ keysList g := by
      intro a b hb
      obtain ⟨p, hp, hbp⟩ := mem_getD_vals hb
      exact hvals p hp b hbp
    have hany : (keysList g).any
        (fun s => (is_hamiltonian_path g ((allNodes g).card + 1) [s] {s}).1) = false := by
      rw [List.any_eq_false]
      intro s hs
      by_cases hsi : s = i
      · subst hsi
        have h1 : ([s] : List V).length ≠ g.length := by
          simp only [List.length_singleton]
          omega
        intro hc
        rw [is_hamiltonian_path, if_neg h1] at hc
        have hc2 : (hamLoop (fun p v => is_hamiltonian_path g (allNodes g).card p v)
            [s] {s} (getD g s)).1 = true := hc
        rw [hideg] at hc2
        exact absurd hc2 (by rw [hamLoop]; simp)
      · have hfalse : (is_hamiltonian_path g ((allNodes g).card + 1) [s] {s}).1 = false := by
          apply is_hamiltonian_path_isolated g i hnodup hvals2 hsym hik hideg
          · rw [Finset.mem_singleton]
            exact fun h => hsi h.symm
          · intro x hx
            rw [Finset.mem_singleton.mp hx]
            exact hs
          · simp
        simp [hfalse]
    rw [has_hamiltonian_path]
    rw [if_neg (by rw [hany]; simp)]

/-- C8, witness at concrete inputs: the complete graph on `{0, 1, 2}`
admits a Hamiltonian path, while the graph on `{0, 1, 2}` whose node `2`
is isolated does not. -/
theorem hamiltonian_search_extremes_witness :
    has_hamiltonian_path [((0 : Nat), [1, 2]), (1, [0, 2]), (2, [0, 1])] =
        "Hamiltonian Path Exists ✅" ∧
      has_hamiltonian_path [((0 : Nat), [1]), (1, [0]), (2, [])] =
        "❌ No Hamiltonian Path Found" :=
  ⟨hamiltonian_search_extremes.1 _ (by decide) (by decide) (by decide) (by decide),
   hamiltonian_search_extremes.2 _ 2 (by decide) (by decide) (by decide) (by decide)
     (by decide) (by decide)⟩

/-- C10: whenever the recursive backtracking helper returns `False`, the
path list and visited set it was given are exactly as they were at
entry: every node appended during the failed attempt has been popped and
every node added to the visited set has been removed. -/
theorem backtracking_restores_state {V : Type} [DecidableEq V] (g : Adj V)
    (fuel : Nat) (path : List V) (visited : Finset V)
    (h : (is_hamiltonian_path g fuel path visited).1 = false) :
    (is_hamiltonian_path g fuel path visited).2.1 = path ∧
      (is_hamiltonian_path g fuel path visited).2.2 = visited :=
  is_hamiltonian_path_restore g fuel path visited h

/-- C10, witness at a concrete input: a failing search over the graph
with components `{0, 1}` and `{2, 3}` hands back its entry path `[0]`
and entry visited set `{0}`. -/
theorem backtracking_restores_state_witness :
    (is_hamiltonian_path [((0 : Nat), [1]), (1, [0]), (2, [3]), (3, [2])] 5 [0] {0}).1 = false ∧
      ((is_hamiltonian_path [((0 : Nat), [1]), (1, [0]), (2, [3]), (3, [2])] 5 [0] {0}).2.1 = [0] ∧
        (is_hamiltonian_path [((0 : Nat), [1]), (1, [0]), (2, [3]), (3, [2])] 5 [0] {0}).2.2 = {0}) :=
  ⟨by decide, backtracking_restores_state _ 5 [0] {0} (by decide)⟩

/-- C9: the detection pipeline returns the output of the first strategy
whose node list and edge list are both non-empty — whatever the later
strategies would return, they are irrelevant — and returns two empty
lists when every strategy fails to produce both non-empty lists. -/
theorem detection_pipeline_first_success {α β γ : Type} :
    (∀ (pre : List (α → List β × List γ)) (m : α → List β × List γ)
        (post : List (α → List β × List γ)) (img : α),
        (∀ p ∈ pre, (p img).1.isEmpty = true ∨ (p img).2.isEmpty = true) →
        (m img).1.isEmpty = false →
        (m img).2.isEmpty = false →
        alternative_detection_methods (pre ++ m :: post) img = m img) ∧
    (∀ (methods : List (α → List β × List γ)) (img : α),
        (∀ p ∈ methods, (p img).1.isEmpty = true ∨ (p img).2.isEmpty = true) →
        alternative_detection_methods methods img = ([], [])) := by
  constructor
  · intro pre m post img hpre hm1 hm2
    induction pre with
    | nil =>
        rw [List.nil_append, alternative_detection_methods]
        simp [hm1, hm2]
    | cons p rest ih =>
        rw [List.cons_append, alternative_detection_methods]
        have hp := hpre p (List.mem_cons_self _ _)
        rcases hp with hp | hp
        · simp only [hp]
          simp
          exact ih (fun q hq => hpre q (List.mem_cons_of_mem _ hq))
        · simp only [hp]
          simp
          exact ih (fun q hq => hpre q (List.mem_cons_of_mem _ hq))
  · intro methods img hall
    induction methods with
    | nil => rfl
    | cons p rest ih =>
        rw [alternative_detection_methods]
        have hp := hall p (List.mem_cons_self _ _)
        rcases hp with hp | hp
        · simp only [hp]
          simp
          exact ih (fun q hq => hall q (List.mem_cons_of_mem _ hq))
        · simp only [hp]
          simp
          exact ih (fun q hq => hall q (List.mem_cons_of_mem _ hq))

/-- C9, witness at concrete inputs: with a first strategy producing no
nodes, the pipeline returns the second strategy's non-empty output, and
with only failing strategies it returns two empty lists. -/
theorem detection_pipeline_first_success_witness :
    alternative_detection_methods
        [fun _ => (([] : List Nat), ([5] : List Nat)), fun _ => ([1], [2]),
          fun _ => ([9], [8])] (0 : Nat) = ([1], [2]) ∧
      alternative_detection_methods
        [fun _ => (([] : List Nat), ([5] : List Nat))] (0 : Nat) = ([], []) := by
  constructor
  · exact detection_pipeline_first_success.1
      [fun _ => (([] : List Nat), ([5] : List Nat))] (fun _ => ([1], [2]))
      [fun _ => ([9], [8])] 0
      (by intro p hp
          rw [List.mem_singleton] at hp
          subst hp
          left
          rfl)
      rfl rfl
  · exact detection_pipeline_first_success.2
      [fun _ => (([] : List Nat), ([5] : List Nat))] 0
      (by intro p hp
          rw [List.mem_singleton] at hp
          subst hp
          left
          rfl)
